import Mathlib

/-!
Verification of the signal analysis algorithm core of DataLab
(`cdl/algorithms/signal.py`).

The Python functions are shallowly embedded as Lean functions.  Floating
point values are idealised as exact rationals `ℚ` (or reals/complexes for
the Fourier transform routines, which involve transcendental twiddle
factors).  NumPy arrays become Lean lists; vectorised NumPy expressions
become `List.map`/`List.filter`/`Finset` operations over index ranges.
Functions from external libraries (SciPy optimisers and interpolators,
`scipy.signal.welch`) are not part of the repository and are taken as
opaque parameters of the embeddings that call them, so every theorem
quantifies over their possible behaviours.

Python's in-place warnings (`warnings.warn`) are modelled by returning an
extra `Bool` flag, and `raise` of `ValueError` by an `Except String`
result.
-/

namespace DataLab

/-- `np.diff`: first order difference of a list. -/
def diffQ (l : List ℚ) : List ℚ :=
  (l.zip l.tail).map (fun p => p.2 - p.1)

/-- `np.max` on a (nonempty) list of rationals; on `[]` we return `0`
(NumPy raises there; no claim exercises that case). -/
def maxQ (l : List ℚ) : ℚ :=
  l.foldr max (l.headD 0)

/-- `np.min` on a (nonempty) list of rationals; on `[]` we return `0`. -/
def minQ (l : List ℚ) : ℚ :=
  l.foldr min (l.headD 0)

/-- `sampling_period(x)` from `signal.py`:
`steps = np.diff(x)`; warn (`warnings.warn("Non-constant sampling signal")`)
when `np.isclose(np.diff(steps).max(), 0, atol=1e-10)` fails, i.e. when
`|max(np.diff(steps))| ≤ 1e-10` fails (NumPy's `isclose(a, 0)` is
`|a - 0| ≤ atol + rtol*|0| = atol`); return `steps[0]`.
The returned pair is (value, warning-emitted). -/
def sampling_period (x : List ℚ) : ℚ × Bool :=
  let steps := diffQ x
  (steps.headD 0, decide (¬ |maxQ (diffQ steps)| ≤ 1 / 10000000000))

/-- `sampling_rate(x)`: `1.0 / sampling_period(x)` (the warning flag of
`sampling_period` is discarded, as the Python warning just propagates). -/
def sampling_rate (x : List ℚ) : ℚ :=
  1 / (sampling_period x).1

/-- `find_nearest_zero_point_idx(y)` from `signal.py`:
`np.where((y[:-1] >= 0) & (y[1:] <= 0) | (y[:-1] <= 0) & (y[1:] >= 0))[0]`. -/
def find_nearest_zero_point_idx (y : List ℚ) : List ℕ :=
  (List.range (y.length - 1)).filter (fun i =>
    decide ((0 ≤ y.getD i 0 ∧ y.getD (i + 1) 0 ≤ 0) ∨
            (y.getD i 0 ≤ 0 ∧ 0 ≤ y.getD (i + 1) 0)))

/-- `find_x_at_value(x, y, value)` from `signal.py`: shift `y` by `value`,
bracket the zero crossings with `find_nearest_zero_point_idx`, and solve
the interpolating line `leveled = p*(x - x0)` for each bracket, where
`p = (leveled[i+1] - leveled[i]) / (x[i+1] - x[i])`,
`ori = leveled[i+1] - p*x[i+1]` and `x0 = -ori/p`.
Returns `[0.0]` when there is no bracket. -/
def find_x_at_value (x y : List ℚ) (value : ℚ) : List ℚ :=
  let leveled := y.map (fun v => v - value)
  let xi := find_nearest_zero_point_idx leveled
  if xi = [] then [0]
  else
    xi.map (fun i =>
      let p := (leveled.getD (i + 1) 0 - leveled.getD i 0) /
               (x.getD (i + 1) 0 - x.getD i 0)
      let ori := leveled.getD (i + 1) 0 - p * x.getD (i + 1) 0;
      -ori / p)

/-- `bandwidth(data, level)` from `signal.py`:
`half_max = np.max(y) - level`; `bw = find_x_at_value(x, y, half_max)[0]`;
returns `(x[0], half_max, bw, half_max)`. -/
def bandwidth (data : List ℚ × List ℚ) (level : ℚ) : ℚ × ℚ × ℚ × ℚ :=
  let x := data.1
  let y := data.2
  let half_max := maxQ y - level
  let bw := (find_x_at_value x y half_max).headD 0
  (x.headD 0, half_max, bw, half_max)

/-- The behaviour of `bandwidth` that the specification describes: the
left and right abscissae are the *first pair* of crossings returned by
`find_x_at_value`.  This definition follows the spec's words and is
compared against the embedding `bandwidth` of the source. -/
def bandwidthSpecClaimed (data : List ℚ × List ℚ) (level : ℚ) : ℚ × ℚ × ℚ × ℚ :=
  let x := data.1
  let y := data.2
  let half_level := maxQ y - level
  let crossings := find_x_at_value x y half_level
  (crossings.getD 0 0, half_level, crossings.getD 1 0, half_level)

/-- Indices of the zero entries of `dy`
(`(zeros,) = np.where(dy == 0)` in `peak_indexes`). -/
def zeroIdx (dy : List ℚ) : List ℕ :=
  (List.range dy.length).filter (fun i => decide (dy.getD i 0 = 0))

/-- Group a (sorted) list of indices into maximal runs of consecutive
integers.  This models
`zero_plateaus = np.split(zeros, np.add(np.where(zeros_diff != 1), 1))`
in `peak_indexes`. -/
def chainRuns : List ℕ → List (List ℕ)
  | [] => []
  | i :: rest =>
    match chainRuns rest with
    | [] => [[i]]
    | r :: rs => if r.headD 0 = i + 1 then (i :: r) :: rs else [i] :: r :: rs

/-- Overwrite the entries of `dy` at the indices of `run` with value `v`
(the vectorised assignment `dy[plateau] = v` of `peak_indexes`). -/
def setRun (dy : List ℚ) (run : List ℕ) (v : ℚ) : List ℚ :=
  (List.range dy.length).map (fun i => if i ∈ run then v else dy.getD i 0)

/-- `peak_indexes` plateau fix, left edge: if the leftmost zero run starts
at index 0, reassign it the slope immediately following it and drop it
(`dy[zero_plateaus[0]] = dy[zero_plateaus[0][-1] + 1]; zero_plateaus.pop(0)`). -/
def fixLeft (dy : List ℚ) (runs : List (List ℕ)) : List ℚ × List (List ℕ) :=
  match runs with
  | [] => (dy, [])
  | r :: rs =>
    if r.headD 0 = 0 then (setRun dy r (dy.getD (r.getLastD 0 + 1) 0), rs)
    else (dy, r :: rs)

/-- `peak_indexes` plateau fix, right edge: if the rightmost remaining
zero run ends at `len(dy) - 1`, reassign it the slope immediately
preceding it and drop it
(`dy[zero_plateaus[-1]] = dy[zero_plateaus[-1][0] - 1]; zero_plateaus.pop(-1)`). -/
def fixRight (dy : List ℚ) (runs : List (List ℕ)) : List ℚ × List (List ℕ) :=
  match runs.getLast? with
  | none => (dy, runs)
  | some r =>
    if r.getLastD 0 = dy.length - 1 then
      (setRun dy r (dy.getD (r.headD 0 - 1) 0), runs.dropLast)
    else (dy, runs)

/-- `peak_indexes` interior plateau fix: each remaining zero run `[a..b]`
is split at its median `(a+b)/2` (`np.median` of a run of consecutive
integers); entries strictly below the median take the preceding non-zero
slope `dy[a-1]`, entries at or above it take the following slope `dy[b+1]`. -/
def fixInterior (dy : List ℚ) (runs : List (List ℕ)) : List ℚ :=
  runs.foldl
    (fun d r =>
      let a := r.headD 0
      let b := r.getLastD 0
      (List.range d.length).map (fun i =>
        if i ∈ r then (if 2 * i < a + b then d.getD (a - 1) 0 else d.getD (b + 1) 0)
        else d.getD i 0))
    dy

/-- The first order difference of `y` after all the plateau fixes of
`peak_indexes` (lines "propagate left and right values successively to
fill all plateau pixels"). -/
def adjustedDy (y : List ℚ) : List ℚ :=
  let dy := diffQ y
  let runs := chainRuns (zeroIdx dy)
  let dr1 := fixLeft dy runs
  let dr2 := fixRight dr1.1 dr1.2
  fixInterior dr2.1 dr2.2

/-- Threshold resolution in `peak_indexes`:
`thres = thres * (np.max(y) - np.min(y)) + np.min(y)` unless `thres_abs`. -/
def thresResolved (y : List ℚ) (thres : ℚ) (thres_abs : Bool) : ℚ :=
  if thres_abs then thres else thres * (maxQ y - minQ y) + minQ y

/-- Candidate peaks of `peak_indexes`:
`np.where((np.hstack([dy, 0.]) < 0.) & (np.hstack([0., dy]) > 0.) & (np.greater(y, thres)))[0]`
on the plateau-fixed difference.  Index `i` of the left-padded array reads
`dy[i-1]` (and the pad `0 > 0` fails at `i = 0`); index `i` of the
right-padded array reads `dy[i]` (and the pad `0 < 0` fails at
`i = len dy`). -/
def peakCandidates (y : List ℚ) (thres : ℚ) (thres_abs : Bool) : List ℕ :=
  let dy := adjustedDy y
  let t := thresResolved y thres thres_abs
  (List.range y.length).filter (fun i =>
    decide (i < dy.length ∧ dy.getD i 0 < 0 ∧
            0 < i ∧ 0 < dy.getD (i - 1) 0 ∧
            t < y.getD i 0))

/-- One step of the minimum-distance pruning loop of `peak_indexes`.
`rem` is the set of excluded indices (the boolean work array `rem`, as the
set of its `True` positions).  For a still-active peak `p`
(`if not rem[peak]`), all indices in the window
`slice(max(0, peak - min_dist), peak + min_dist + 1)` are excluded and
`p` itself is re-activated. -/
def pruneStep (min_dist : ℕ) (rem : Finset ℕ) (p : ℕ) : Finset ℕ :=
  if p ∈ rem then rem
  else (rem ∪ Finset.Ico (p - min_dist) (p + min_dist + 1)) \ {p}

/-- The minimum-distance pruning of `peak_indexes`
(`highest = peaks[np.argsort(y[peaks])][::-1]`, then the `rem` loop, then
`peaks = np.arange(y.size)[~rem]`).  `np.argsort` of the peak amplitudes
is modelled by a stable insertion sort by amplitude. -/
def prunePeaks (y : List ℚ) (min_dist : ℕ) (peaks : List ℕ) : List ℕ :=
  let highest := (List.insertionSort (fun i j => y.getD i 0 ≤ y.getD j 0) peaks).reverse
  let rem0 : Finset ℕ := (Finset.range y.length).filter (fun i => i ∉ peaks)
  let remF := highest.foldl (pruneStep min_dist) rem0
  (List.range y.length).filter (fun i => decide (i ∉ remF))

/-- `peak_indexes(y, thres, min_dist, thres_abs)` from `signal.py`
(the PeakUtils 1.3.0 routine).  The totally-flat check
`len(zeros) == len(y) - 1` uses truncated `ℕ` subtraction, which agrees
with the Python comparison for every `y` on which the Python code does
not raise (for `y = []` Python falls through and also returns `[]`).
The `ValueError` on unsigned input dtypes cannot arise in `ℚ`. -/
def peak_indexes (y : List ℚ) (thres : ℚ) (min_dist : ℕ) (thres_abs : Bool) :
    List ℕ :=
  if (zeroIdx (diffQ y)).length = y.length - 1 then []
  else
    let peaks := peakCandidates y thres thres_abs
    if 1 < peaks.length ∧ 1 < min_dist then prunePeaks y min_dist peaks
    else peaks

/-- The test signal of claim C5: a flat-zero array of length 20 with
spikes of heights 10 and 8 at indices 10 and 12. -/
def spikes2 : List ℚ :=
  [0, 0, 0, 0, 0, 0, 0, 0, 0, 0, 10, 0, 8, 0, 0, 0, 0, 0, 0, 0]

/-- One point of `np.interp(xnew, x, y, left=fill_value, right=fill_value)`:
points below `x[0]` give `left` (default `y[0]`), points above `x[-1]`
give `right` (default `y[-1]`), interior points are interpolated
piecewise-linearly. -/
def npInterpPoint (x y : List ℚ) (left right : Option ℚ) (t : ℚ) : ℚ :=
  if t < x.headD 0 then left.getD (y.headD 0)
  else if x.getLastD 0 < t then right.getD (y.getLastD 0)
  else npInterpIn x y t
where
  /-- interior piecewise-linear interpolation of `np.interp` -/
  npInterpIn : List ℚ → List ℚ → ℚ → ℚ
    | x0 :: x1 :: xs, y0 :: y1 :: ys, t =>
      if t ≤ x1 then y0 + (y1 - y0) * (t - x0) / (x1 - x0)
      else npInterpIn (x1 :: xs) (y1 :: ys) t
    | _, _, _ => 0

/-- The overwriting step of `interpolate` for the `cubic`/`pchip` methods:
`ynew = interpolator_extrap(xnew, extrapolate=fill_value is None)` followed
by `ynew[xnew < x[0]] = fill_value; ynew[xnew > x[-1]] = fill_value` when
`fill_value` is not `None`.  `f` is the (opaque) SciPy interpolator,
taking the extrapolate flag and an evaluation point. -/
def applyFillOverwrite (f : Bool → ℚ → ℚ) (x xnew : List ℚ)
    (fill : Option ℚ) : List ℚ :=
  let ynew := xnew.map (f fill.isNone)
  match fill with
  | none => ynew
  | some c =>
    (xnew.zip ynew).map (fun p =>
      if p.1 < x.headD 0 ∨ x.getLastD 0 < p.1 then c else p.2)

/-- `interpolate(x, y, xnew, method, fill_value)` from `signal.py`.
The SciPy interpolators are external library code and are passed as
opaque parameters: `splineF`, `quadF`, `baryF` evaluate the
spline/quadratic-polyfit/barycentric interpolants built from `x, y` at a
point (always extrapolating, with no access to `fill_value`), while
`akimaF` and `pchipF` additionally receive the `extrapolate` flag.
An unknown method raises `ValueError`, modelled by `Except.error`. -/
def interpolate (splineF quadF baryF : List ℚ → List ℚ → ℚ → ℚ)
    (akimaF pchipF : List ℚ → List ℚ → Bool → ℚ → ℚ)
    (x y xnew : List ℚ) (method : String) (fill_value : Option ℚ) :
    Except String (List ℚ) :=
  if method = "linear" then
    .ok (xnew.map (npInterpPoint x y fill_value fill_value))
  else if method = "spline" then
    .ok (xnew.map (splineF x y))
  else if method = "quadratic" then
    .ok (xnew.map (quadF x y))
  else if method = "cubic" then
    .ok (applyFillOverwrite (akimaF x y) x xnew fill_value)
  else if method = "barycentric" then
    .ok (xnew.map (baryF x y))
  else if method = "pchip" then
    .ok (applyFillOverwrite (pchipF x y) x xnew fill_value)
  else
    .error ("Invalid interpolation method " ++ method)

/-- `xpeak(x, y)` from `signal.py`: the X of the single detected peak, or
`np.average(x, weights=y)` otherwise.  `peak_indexes` is called with its
default parameters `thres=0.3, min_dist=1, thres_abs=False`. -/
def xpeak (x y : List ℚ) : ℚ :=
  let peaks := peak_indexes y (3 / 10) 1 false
  if peaks.length = 1 then x.getD (peaks.headD 0) 0
  else ((x.zip y).map (fun p => p.1 * p.2)).sum / y.sum

/-- A Python number as passed to the `xmin`/`xmax` parameters of `fwhm`:
`isinstance(v, float)` holds for the `float` variant only (a Python `int`
is not an instance of `float`). -/
inductive PyNum
  | int (z : ℤ)
  | float (q : ℚ)

/-- `x = x[indexes]; y = y[indexes]` for `indexes = np.where(x >= b)[0]`
(the `xmin` restriction of `fwhm`). -/
def restrictGe (x y : List ℚ) (b : ℚ) : List ℚ × List ℚ :=
  let idx := (List.range x.length).filter (fun i => decide (b ≤ x.getD i 0))
  (idx.map (fun i => x.getD i 0), idx.map (fun i => y.getD i 0))

/-- `x = x[indexes]; y = y[indexes]` for `indexes = np.where(x <= b)[0]`
(the `xmax` restriction of `fwhm`). -/
def restrictLe (x y : List ℚ) (b : ℚ) : List ℚ × List ℚ :=
  let idx := (List.range x.length).filter (fun i => decide (x.getD i 0 ≤ b))
  (idx.map (fun i => x.getD i 0), idx.map (fun i => y.getD i 0))

/-- Modelled from the spec: the peak-shape model classes
(`fit.GaussianModel`, `fit.LorentzianModel`, `fit.VoigtModel`) live in
`cdl/algorithms/fit.py`, which is not part of the provided sources.  Per
the spec, each model variant exposes its value function, an
amplitude-from-peak-height inverse, and a closed-form half-max segment
formula; the three operations are therefore opaque fields. -/
structure FitModelSpec where
  func : List ℚ → ℚ → ℚ → ℚ → ℚ → List ℚ
  get_amp_from_amplitude : ℚ → ℚ → ℚ
  half_max_segment : ℚ → ℚ → ℚ → ℚ → ℚ × ℚ × ℚ × ℚ

/-- `fwhm(data, method, xmin, xmax)` from `signal.py`.  `leastsq` (the
SciPy nonlinear optimiser mapping a residual function and an initial
4-parameter guess to fitted parameters) and the three fit model classes
are opaque parameters.  The bounds are applied only through
`isinstance(xmin, float)` / `isinstance(xmax, float)`: any non-`float`
bound (including a Python `int`) leaves the data unrestricted.  The
"ambiguous zero-crossing points" advisory warning is not modelled (it
does not change the returned value). -/
def fwhm (leastsq : ((ℚ × ℚ × ℚ × ℚ) → List ℚ) → (ℚ × ℚ × ℚ × ℚ) → ℚ × ℚ × ℚ × ℚ)
    (gaussM lorentzM voigtM : FitModelSpec)
    (data : List ℚ × List ℚ) (method : String)
    (xmin xmax : Option PyNum) : Except String (ℚ × ℚ × ℚ × ℚ) :=
  let x0 := data.1
  let y0 := data.2
  let dy := maxQ y0 - minQ y0
  let base := minQ y0
  let sigma := (maxQ x0 - minQ x0) * (1 / 10)
  let mu := xpeak x0 y0
  let p1 := match xmin with
    | some (PyNum.float q) => restrictGe x0 y0 q
    | _ => (x0, y0)
  let p2 := match xmax with
    | some (PyNum.float q) => restrictLe p1.1 p1.2 q
    | _ => p1
  let x := p2.1
  let y := p2.2
  if method = "zero-crossing" then
    let hmax := dy * (1 / 2) + minQ y
    let fx := find_x_at_value x y hmax
    .ok (fx.headD 0, hmax, fx.getLastD 0, hmax)
  else
    match (if method = "gauss" then some gaussM
           else if method = "lorentz" then some lorentzM
           else if method = "voigt" then some voigtM
           else none) with
    | none => .error ("Invalid method " ++ method)
    | some M =>
      let amp := M.get_amp_from_amplitude dy sigma
      let residual := fun p : ℚ × ℚ × ℚ × ℚ =>
        (y.zip (M.func x p.1 p.2.1 p.2.2.1 p.2.2.2)).map (fun q => q.1 - q.2)
      let p := leastsq residual (amp, sigma, mu, base)
      .ok (M.half_max_segment p.1 p.2.1 p.2.2.1 p.2.2.2)

/-- `np.fft.fftfreq(n, d)`: bin `k` carries frequency `k/(n·d)` for the
first half (`2k < n`) and `(k-n)/(n·d)` for the second half. -/
noncomputable def fftfreq (n : ℕ) (d : ℝ) : List ℝ :=
  (List.range n).map (fun k =>
    (if 2 * k < n then (k : ℝ) else (k : ℝ) - n) / (n * d))

/-- `np.fft.fftshift`: roll by `n // 2`, moving the zero-frequency bin to
the centre. -/
def fftshift {α : Type} (l : List α) : List α :=
  l.drop (l.length - l.length / 2) ++ l.take (l.length - l.length / 2)

/-- `np.fft.ifftshift`: roll by `-(n // 2)`, the inverse of `fftshift`. -/
def ifftshift {α : Type} (l : List α) : List α :=
  l.drop (l.length / 2) ++ l.take (l.length / 2)

/-- `np.fft.fft(y)`: `A[k] = Σ_m y[m] · exp(-2πi·k·m/n)`. -/
noncomputable def fftL (y : List ℂ) : List ℂ :=
  (List.range y.length).map (fun (k : ℕ) =>
    ∑ m in Finset.range y.length,
      y.getD m 0 *
        Complex.exp (-(2 * Real.pi * Complex.I) * (k : ℂ) * (m : ℂ) /
          (y.length : ℂ)))

/-- `np.fft.ifft(y)`: `a[m] = (1/n) · Σ_k y[k] · exp(2πi·k·m/n)`. -/
noncomputable def ifftL (y : List ℂ) : List ℂ :=
  (List.range y.length).map (fun (m : ℕ) =>
    (∑ k in Finset.range y.length,
      y.getD k 0 *
        Complex.exp ((2 * Real.pi * Complex.I) * (k : ℂ) * (m : ℂ) /
          (y.length : ℂ))) / (y.length : ℂ))

/-- `fft1d(x, y, shift)` from `signal.py`: `y1 = np.fft.fft(y)`,
`x1 = np.fft.fftfreq(x.size, d=x[1]-x[0])`, both shifted when `shift`. -/
noncomputable def fft1d (x : List ℝ) (y : List ℂ) (shift : Bool) :
    List ℝ × List ℂ :=
  let y1 := fftL y
  let x1 := fftfreq x.length (x.getD 1 0 - x.getD 0 0)
  if shift then (fftshift x1, fftshift y1) else (x1, y1)

/-- `ifft1d(x, y, shift)` from `signal.py`: optionally `ifftshift` the
input, inverse transform, rebuild a time axis with step
`dt = 1/(x[-1] - x[0] + (x[1] - x[0]))`, and keep only the real part. -/
noncomputable def ifft1d (x : List ℝ) (y : List ℂ) (shift : Bool) :
    List ℝ × List ℝ :=
  let yin := if shift then ifftshift y else y
  let y1 := ifftL yin
  let dt := 1 / (x.getLastD 0 - x.getD 0 0 + (x.getD 1 0 - x.getD 0 0))
  let x1 := (List.range y1.length).map (fun i => (i : ℝ) * dt)
  (x1, y1.map Complex.re)

/-- `magnitude_spectrum(x, y, log_scale)` from `signal.py`.  The source
computes `y_mag = 20 * np.log10(np.abs(y1))` under `if log_scale:` and then
unconditionally rebinds `y_mag = np.abs(y1)`, so the dB-scaled value is
dead; the dead store is kept here as an unused binding (with `none` for
"not assigned"). -/
noncomputable def magnitude_spectrum (x : List ℝ) (y : List ℂ)
    (log_scale : Bool) : List ℝ × List ℝ :=
  let fp := fft1d x y true
  let _dead :=
    if log_scale then
      some (fp.2.map (fun c => (20 : ℝ) * Real.logb 10 (Complex.abs c)))
    else none
  (fp.1, fp.2.map Complex.abs)

/-- The result of `psd`: the Python function returns a `(f, pxx)` tuple on
one branch and a bare dB-scaled array on the other, so the embedded return
type is a sum. -/
inductive PsdResult
  | pair (f pxx : List ℚ)
  | dbOnly (vals : List ℝ)

/-- `psd(x, y, log_scale)` from `signal.py`:
`f, pxx = sps.welch(y, fs=sampling_rate(x))`; with `log_scale` it returns
only `10 * np.log10(pxx)` (no frequency axis), otherwise the pair
`(f, pxx)`.  `scipy.signal.welch` is external library code, passed as the
opaque parameter `welchF`. -/
noncomputable def psd (welchF : List ℚ → ℚ → List ℚ × List ℚ)
    (x y : List ℚ) (log_scale : Bool) : PsdResult :=
  let fp := welchF y (sampling_rate x)
  if log_scale then
    PsdResult.dbOnly (fp.2.map (fun v => (10 : ℝ) * Real.logb 10 (v : ℝ)))
  else PsdResult.pair fp.1 fp.2

/-- NumPy's ordering of complex values, used by `np.argsort` on a complex
array: lexicographic by real part, then imaginary part. -/
def cLeLex (a b : ℂ) : Prop :=
  a.re < b.re ∨ (a.re = b.re ∧ a.im ≤ b.im)

open Classical in
/-- `np.argsort` on a complex array: the indices `0..n-1` sorted by the
NumPy lexicographic complex order of the corresponding entries (modelled
by a stable insertion sort). -/
noncomputable def argsortC (key : List ℂ) : List ℕ :=
  List.insertionSort (fun i j => cLeLex (key.getD i 0) (key.getD j 0))
    (List.range key.length)

/-- `sort_frequencies(x, y)` from `signal.py`:
`freqs, fourier = fft1d(x, y, shift=False)`; returns
`freqs[np.argsort(fourier)]` — note that `np.argsort` is applied to the
*complex* FFT values, not to their magnitudes. -/
noncomputable def sort_frequencies (x : List ℝ) (y : List ℂ) : List ℝ :=
  let fp := fft1d x y false
  (argsortC fp.2).map (fun i => fp.1.getD i 0)

open Classical in
/-- `np.argsort` on the magnitudes of a complex array (what the spec
claims `sort_frequencies` sorts by). -/
noncomputable def argsortAbs (key : List ℂ) : List ℕ :=
  List.insertionSort
    (fun i j => Complex.abs (key.getD i 0) ≤ Complex.abs (key.getD j 0))
    (List.range key.length)

/-- The behaviour of `sort_frequencies` that the specification describes:
the unshifted frequency axis reordered by ascending rank of the
Fourier-transform *magnitude*.  This definition follows the spec's words
and is compared against the embedding `sort_frequencies` of the source. -/
noncomputable def sortFrequenciesSpecClaimed (x : List ℝ) (y : List ℂ) :
    List ℝ :=
  let fp := fft1d x y false
  (argsortAbs fp.2).map (fun i => fp.1.getD i 0)

/-! ## Theorems -/

/-- Claim C1: the spec states that with `log_scale` true,
`magnitude_spectrum` returns `20*log10(|FFT(y)|)`.  In the code the
dB-scaled array is assigned and then unconditionally overwritten by the
plain magnitude, so `log_scale` has no effect at all: for every input the
`log_scale=True` result coincides with the `log_scale=False` result, and
both equal the shifted frequency axis paired with `|FFT(y)|`. -/
theorem magnitude_spectrum_log_scale_dead (x : List ℝ) (y : List ℂ) :
    magnitude_spectrum x y true = magnitude_spectrum x y false ∧
    magnitude_spectrum x y true =
      ((fft1d x y true).1, (fft1d x y true).2.map Complex.abs) :=
  ⟨rfl, rfl⟩

/-- Claim C3: the spec states that `psd` returns a `(frequency, power)`
pair in both scaling modes.  In the code the `log_scale` branch returns
only the bare dB-scaled power array (`return 10 * np.log10(pxx)`), not a
pair: for every Welch backend the `log_scale=True` result is the
`dbOnly` variant, while only `log_scale=False` produces the pair. -/
theorem psd_log_scale_returns_bare_array
    (welchF : List ℚ → ℚ → List ℚ × List ℚ) (x y : List ℚ) :
    psd welchF x y true =
      PsdResult.dbOnly
        ((welchF y (sampling_rate x)).2.map
          (fun v => (10 : ℝ) * Real.logb 10 (v : ℝ))) ∧
    psd welchF x y false =
      PsdResult.pair (welchF y (sampling_rate x)).1
        (welchF y (sampling_rate x)).2 :=
  ⟨rfl, rfl⟩

/-- Claim C10: `fwhm` applies its `xmin`/`xmax` bounds only when they are
`float` instances; a bound passed as a Python `int` leaves the data
unrestricted, exactly as if the bound were `None`, for every data set,
method, optimiser and fit model (and it does not raise). -/
theorem fwhm_ignores_nonfloat_bounds
    (leastsq : ((ℚ × ℚ × ℚ × ℚ) → List ℚ) → (ℚ × ℚ × ℚ × ℚ) → ℚ × ℚ × ℚ × ℚ)
    (gaussM lorentzM voigtM : FitModelSpec) (data : List ℚ × List ℚ)
    (method : String) (k : ℤ) (xmin xmax : Option PyNum) :
    fwhm leastsq gaussM lorentzM voigtM data method (some (PyNum.int k)) xmax =
      fwhm leastsq gaussM lorentzM voigtM data method none xmax ∧
    fwhm leastsq gaussM lorentzM voigtM data method xmin (some (PyNum.int k)) =
      fwhm leastsq gaussM lorentzM voigtM data method xmin none :=
  ⟨rfl, rfl⟩

/-- Claim C4: for strictly increasing `x` with at least three samples,
`sampling_period(x)` returns `x[1] - x[0]`, and the non-fatal
"Non-constant sampling signal" warning fires exactly when
`|max(diff(diff(x)))| ≤ 1e-10` fails. -/
theorem sampling_period_claim (x : List ℚ) (h3 : 3 ≤ x.length)
    (hmono : x.Chain' (· < ·)) :
    (sampling_period x).1 = x.getD 1 0 - x.getD 0 0 ∧
    ((sampling_period x).2 = true ↔
      ¬ |maxQ (diffQ (diffQ x))| ≤ 1 / 10000000000) := by
  constructor
  · match x, h3 with
    | a :: b :: c :: t, _ => rfl
  · simp [sampling_period]

/-- `getD` through a `map`, for an index in range (any default on the
right). -/
theorem getD_map {α β : Type} (f : α → β) (l : List α) (i : ℕ) (d : β)
    (d' : α) (h : i < l.length) : (l.map f).getD i d = f (l.getD i d') := by
  simp [List.getD_eq_getElem?_getD, List.getElem?_eq_getElem, h,
    List.getElem?_map]

/-- `getD` through a `zip`, for an index in range of both lists. -/
theorem getD_zip {α β : Type} (l1 : List α) (l2 : List β) (i : ℕ)
    (d1 : α) (d2 : β) (h1 : i < l1.length) (h2 : i < l2.length) :
    (l1.zip l2).getD i (d1, d2) = (l1.getD i d1, l2.getD i d2) := by
  rw [List.getD_eq_getElem?_getD, List.getD_eq_getElem?_getD,
    List.getD_eq_getElem?_getD, List.getElem?_eq_getElem h1,
    List.getElem?_eq_getElem h2,
    List.getElem?_eq_getElem
      (by simp only [List.length_zip]; omega : i < (l1.zip l2).length)]
  simp [List.getElem_zip]

/-- A `getD` at an index in range is a member of the list. -/
theorem getD_mem {α : Type} (l : List α) (i : ℕ) (d : α)
    (h : i < l.length) : l.getD i d ∈ l := by
  rw [List.getD_eq_getElem?_getD, List.getElem?_eq_getElem h]
  exact List.getElem_mem h

/-- `headD` is `getD` at index `0`. -/
theorem headD_eq_getD {α : Type} (l : List α) (d : α) :
    l.headD d = l.getD 0 d := by
  cases l <;> rfl

/-- Unfolding membership in `find_nearest_zero_point_idx`. -/
theorem mem_find_nearest_zero_point_idx {y : List ℚ} {i : ℕ}
    (h : i ∈ find_nearest_zero_point_idx y) :
    i < y.length - 1 ∧
    ((0 ≤ y.getD i 0 ∧ y.getD (i + 1) 0 ≤ 0) ∨
     (y.getD i 0 ≤ 0 ∧ 0 ≤ y.getD (i + 1) 0)) := by
  simpa [find_nearest_zero_point_idx, List.mem_filter] using h

/-- The bracket semantics of `find_x_at_value`, shared by the claims
about `find_x_at_value` and `bandwidth`: the `idx`-th returned abscissa
comes from the `idx`-th sign-change bracket `b`, and whenever the local
slope `p` is nonzero it solves the interpolating-line equation
`p * (x0 - x[b+1]) = value - y[b+1]`. -/
theorem find_x_at_value_bracket (x y : List ℚ) (v : ℚ) (idx b : ℕ) (p : ℚ)
    (hidx : idx < (find_nearest_zero_point_idx (y.map (fun t => t - v))).length)
    (hb : (find_nearest_zero_point_idx (y.map (fun t => t - v))).getD idx 0 = b)
    (hp : (y.getD (b + 1) 0 - y.getD b 0) / (x.getD (b + 1) 0 - x.getD b 0) = p) :
    ((0 ≤ y.getD b 0 - v ∧ y.getD (b + 1) 0 - v ≤ 0) ∨
      (y.getD b 0 - v ≤ 0 ∧ 0 ≤ y.getD (b + 1) 0 - v)) ∧
    (p ≠ 0 → p * ((find_x_at_value x y v).getD idx 0 - x.getD (b + 1) 0) =
      v - y.getD (b + 1) 0) := by
  have hbmem : b ∈ find_nearest_zero_point_idx (y.map (fun t => t - v)) := by
    rw [← hb]; exact getD_mem _ idx 0 hidx
  have hro := mem_find_nearest_zero_point_idx hbmem
  have hylen : (y.map (fun t => t - v)).length = y.length := by simp
  rw [hylen] at hro
  have hby : b < y.length := by omega
  have hb1y : b + 1 < y.length := by omega
  have hLb : (y.map (fun t => t - v)).getD b 0 = y.getD b 0 - v :=
    getD_map _ _ _ _ 0 hby
  have hLb1 : (y.map (fun t => t - v)).getD (b + 1) 0 = y.getD (b + 1) 0 - v :=
    getD_map _ _ _ _ 0 hb1y
  constructor
  · rw [hLb, hLb1] at hro
    exact hro.2
  · intro hp0
    have hxine : find_nearest_zero_point_idx (y.map (fun t => t - v)) ≠ [] := by
      intro hnil
      rw [hnil] at hidx
      simp at hidx
    have hval : (find_x_at_value x y v).getD idx 0 =
        (-((y.map (fun t => t - v)).getD (b + 1) 0 -
            ((y.map (fun t => t - v)).getD (b + 1) 0 -
              (y.map (fun t => t - v)).getD b 0) /
              (x.getD (b + 1) 0 - x.getD b 0) * x.getD (b + 1) 0)) /
          (((y.map (fun t => t - v)).getD (b + 1) 0 -
            (y.map (fun t => t - v)).getD b 0) /
            (x.getD (b + 1) 0 - x.getD b 0)) := by
      rw [find_x_at_value]
      rw [if_neg hxine]
      rw [getD_map _ _ _ _ 0 hidx, hb]
    rw [hval, hLb, hLb1]
    have hnum : y.getD (b + 1) 0 - v - (y.getD b 0 - v) =
        y.getD (b + 1) 0 - y.getD b 0 := by ring
    rw [hnum, hp]
    field_simp

section
set_option maxRecDepth 100000
attribute [local semireducible] Rat.add Rat.sub Rat.mul Rat.inv

/-- Claim C8: `find_x_at_value` returns `[0.0]` when no sign-change
bracket exists; otherwise it returns one linearly interpolated
x-intercept per bracket — each returned abscissa comes from a sign-change
(or zero-touch) bracket and, when the local slope `p` is nonzero,
satisfies the interpolating-line equation `p*(x0 - x[b+1]) = value -
y[b+1]`; in particular `find_x_at_value([0,1,2,3], [-1,1,3,5], 0) =
[0.5]`. -/
theorem find_x_at_value_claim :
    find_x_at_value [0, 1, 2, 3] [-1, 1, 3, 5] 0 = [1 / 2] ∧
    (∀ (x y : List ℚ) (v : ℚ),
      find_nearest_zero_point_idx (y.map (fun t => t - v)) = [] →
      find_x_at_value x y v = [0]) ∧
    (∀ (x y : List ℚ) (v : ℚ) (idx b : ℕ) (p : ℚ),
      idx < (find_nearest_zero_point_idx (y.map (fun t => t - v))).length →
      (find_nearest_zero_point_idx (y.map (fun t => t - v))).getD idx 0 = b →
      (y.getD (b + 1) 0 - y.getD b 0) / (x.getD (b + 1) 0 - x.getD b 0) = p →
      ((0 ≤ y.getD b 0 - v ∧ y.getD (b + 1) 0 - v ≤ 0) ∨
        (y.getD b 0 - v ≤ 0 ∧ 0 ≤ y.getD (b + 1) 0 - v)) ∧
      (p ≠ 0 →
        p * ((find_x_at_value x y v).getD idx 0 - x.getD (b + 1) 0) =
          v - y.getD (b + 1) 0)) := by
  refine ⟨by decide, ?_, ?_⟩
  · intro x y v h
    rw [find_x_at_value, if_pos h]
  · intro x y v idx b p hidx hb hp
    exact find_x_at_value_bracket x y v idx b p hidx hb hp

/-- Witness for C8 at `x=[0,1,2,3]`, `y=[-1,1,3,5]`, `value=0`,
bracket index `idx=0`, bracket `b=0`, slope `p=2`. -/
theorem find_x_at_value_claim_witness :
    (0 < (find_nearest_zero_point_idx
        (([-1, 1, 3, 5] : List ℚ).map (fun t => t - 0))).length) ∧
    ((find_nearest_zero_point_idx
        (([-1, 1, 3, 5] : List ℚ).map (fun t => t - 0))).getD 0 0 = 0) ∧
    ((([-1, 1, 3, 5] : List ℚ).getD (0 + 1) 0 -
        ([-1, 1, 3, 5] : List ℚ).getD 0 0) /
      (([0, 1, 2, 3] : List ℚ).getD (0 + 1) 0 -
        ([0, 1, 2, 3] : List ℚ).getD 0 0) = 2) ∧
    (((0 ≤ ([-1, 1, 3, 5] : List ℚ).getD 0 0 - 0 ∧
        ([-1, 1, 3, 5] : List ℚ).getD (0 + 1) 0 - 0 ≤ 0) ∨
      (([-1, 1, 3, 5] : List ℚ).getD 0 0 - 0 ≤ 0 ∧
        0 ≤ ([-1, 1, 3, 5] : List ℚ).getD (0 + 1) 0 - 0)) ∧
      ((2 : ℚ) ≠ 0 →
        2 * ((find_x_at_value [0, 1, 2, 3] [-1, 1, 3, 5] 0).getD 0 0 -
            ([0, 1, 2, 3] : List ℚ).getD (0 + 1) 0) =
          0 - ([-1, 1, 3, 5] : List ℚ).getD (0 + 1) 0)) :=
  ⟨by decide, by decide, by decide,
    find_x_at_value_claim.2.2 [0, 1, 2, 3] [-1, 1, 3, 5] 0 0 0 2
      (by decide) (by decide) (by decide)⟩

/-- Claim C6 counterexample: on `x=[0,1,2,3]`, `y=[0,10,10,0]`,
`level=5`, the code returns `(x[0], 5, first crossing, 5) = (0, 5, 1/2, 5)`,
not the `(first crossing, 5, second crossing, 5) = (1/2, 5, 5/2, 5)`
segment the claim describes. -/
theorem bandwidth_counterexample :
    bandwidth ([0, 1, 2, 3], [0, 10, 10, 0]) 5 ≠
      bandwidthSpecClaimed ([0, 1, 2, 3], [0, 10, 10, 0]) 5 := by
  decide

/-- Claim C6 amended: `bandwidth(data, level)` returns the 4-tuple
`(x[0], half_level, x_c, half_level)` with `half_level = max(y) - level`,
where the *left* abscissa is the first sample of `x` (not a crossing) and
`x_c` is only the *first* crossing returned by `find_x_at_value`; when
the first bracket `b` has nonzero slope `p`, `x_c` solves the crossing
equation `p*(x_c - x[b+1]) = half_level - y[b+1]`. -/
theorem bandwidth_amended (x y : List ℚ) (level : ℚ) (b : ℕ) (p : ℚ)
    (hlen : 0 < (find_nearest_zero_point_idx
        (y.map (fun t => t - (maxQ y - level)))).length)
    (hb : (find_nearest_zero_point_idx
        (y.map (fun t => t - (maxQ y - level)))).getD 0 0 = b)
    (hp : (y.getD (b + 1) 0 - y.getD b 0) /
        (x.getD (b + 1) 0 - x.getD b 0) = p)
    (hp0 : p ≠ 0) :
    bandwidth (x, y) level =
      (x.headD 0, maxQ y - level,
        (find_x_at_value x y (maxQ y - level)).headD 0, maxQ y - level) ∧
    p * ((find_x_at_value x y (maxQ y - level)).headD 0 - x.getD (b + 1) 0) =
      (maxQ y - level) - y.getD (b + 1) 0 := by
  constructor
  · rfl
  · rw [headD_eq_getD]
    exact (find_x_at_value_bracket x y (maxQ y - level) 0 b p hlen hb hp).2 hp0

/-- Witness for the amended C6 at `x=[0,1,2,3]`, `y=[0,10,10,0]`,
`level=5` (first bracket `b=0`, slope `p=10`). -/
theorem bandwidth_amended_witness :
    (0 < (find_nearest_zero_point_idx
        (([0, 10, 10, 0] : List ℚ).map
          (fun t => t - (maxQ [0, 10, 10, 0] - 5)))).length) ∧
    ((find_nearest_zero_point_idx
        (([0, 10, 10, 0] : List ℚ).map
          (fun t => t - (maxQ [0, 10, 10, 0] - 5)))).getD 0 0 = 0) ∧
    ((([0, 10, 10, 0] : List ℚ).getD (0 + 1) 0 -
        ([0, 10, 10, 0] : List ℚ).getD 0 0) /
      (([0, 1, 2, 3] : List ℚ).getD (0 + 1) 0 -
        ([0, 1, 2, 3] : List ℚ).getD 0 0) = 10) ∧
    ((10 : ℚ) ≠ 0) ∧
    (bandwidth ([0, 1, 2, 3], [0, 10, 10, 0]) 5 =
      (([0, 1, 2, 3] : List ℚ).headD 0, maxQ [0, 10, 10, 0] - 5,
        (find_x_at_value [0, 1, 2, 3] [0, 10, 10, 0]
          (maxQ [0, 10, 10, 0] - 5)).headD 0, maxQ [0, 10, 10, 0] - 5) ∧
      10 * ((find_x_at_value [0, 1, 2, 3] [0, 10, 10, 0]
          (maxQ [0, 10, 10, 0] - 5)).headD 0 -
          ([0, 1, 2, 3] : List ℚ).getD (0 + 1) 0) =
        (maxQ [0, 10, 10, 0] - 5) - ([0, 10, 10, 0] : List ℚ).getD (0 + 1) 0) :=
  ⟨by decide, by decide, by decide, by decide,
    bandwidth_amended [0, 1, 2, 3] [0, 10, 10, 0] 5 0 10
      (by decide) (by decide) (by decide) (by decide)⟩

end

/-- `np.interp` with `left=right=c` returns exactly `c` at an
out-of-range point. -/
theorem npInterpPoint_out (x y : List ℚ) (c t : ℚ)
    (h : t < x.headD 0 ∨ x.getLastD 0 < t) :
    npInterpPoint x y (some c) (some c) t = c := by
  rcases h with h | h
  · rw [npInterpPoint, if_pos h]
    rfl
  · by_cases h1 : t < x.headD 0
    · rw [npInterpPoint, if_pos h1]
      rfl
    · rw [npInterpPoint, if_neg h1, if_pos h]
      rfl

/-- The fill-value overwrite of the `cubic`/`pchip` branches returns
exactly the fill value at an out-of-range point, whatever the SciPy
interpolator did there. -/
theorem applyFillOverwrite_out (f : Bool → ℚ → ℚ) (x xnew : List ℚ)
    (c : ℚ) (i : ℕ) (hi : i < xnew.length)
    (hout : xnew.getD i 0 < x.headD 0 ∨ x.getLastD 0 < xnew.getD i 0) :
    (applyFillOverwrite f x xnew (some c)).getD i 0 = c := by
  have hml : i < (xnew.map (f (some c : Option ℚ).isNone)).length := by
    simpa using hi
  have hzl : i < (xnew.zip (xnew.map (f (some c : Option ℚ).isNone))).length := by
    simp only [List.length_zip]
    omega
  simp only [applyFillOverwrite]
  rw [getD_map _ _ _ _ (0, 0) hzl, getD_zip _ _ _ 0 0 hi hml]
  exact if_pos hout

section
set_option maxRecDepth 100000
attribute [local semireducible] Rat.add Rat.sub Rat.mul Rat.inv

/-- Claim C9: with a non-`None` fill value, `interpolate` returns exactly
the fill value at every strictly out-of-range evaluation point for the
`linear`, `cubic` and `pchip` methods; for `quadratic`, `spline` and
`barycentric` the result never depends on the fill value (the point is
extrapolated by the method); an unrecognized method yields the
invalid-parameter error. -/
theorem interpolate_claim :
    (∀ (sF qF bF : List ℚ → List ℚ → ℚ → ℚ)
      (aF pF : List ℚ → List ℚ → Bool → ℚ → ℚ)
      (x y xnew : List ℚ) (c : ℚ) (i : ℕ) (m : String),
      m ∈ ["linear", "cubic", "pchip"] →
      i < xnew.length →
      (xnew.getD i 0 < x.headD 0 ∨ x.getLastD 0 < xnew.getD i 0) →
      ∃ r, interpolate sF qF bF aF pF x y xnew m (some c) = .ok r ∧
        r.getD i 0 = c) ∧
    (∀ (sF qF bF : List ℚ → List ℚ → ℚ → ℚ)
      (aF pF : List ℚ → List ℚ → Bool → ℚ → ℚ)
      (x y xnew : List ℚ) (m : String),
      m ∈ ["quadratic", "spline", "barycentric"] →
      ∀ fv fv' : Option ℚ,
        interpolate sF qF bF aF pF x y xnew m fv =
          interpolate sF qF bF aF pF x y xnew m fv') ∧
    (∀ (sF qF bF : List ℚ → List ℚ → ℚ → ℚ)
      (aF pF : List ℚ → List ℚ → Bool → ℚ → ℚ)
      (x y xnew : List ℚ) (m : String) (fv : Option ℚ),
      m ∉ ["linear", "spline", "quadratic", "cubic", "barycentric", "pchip"] →
      interpolate sF qF bF aF pF x y xnew m fv =
        .error ("Invalid interpolation method " ++ m)) := by
  refine ⟨?_, ?_, ?_⟩
  · intro sF qF bF aF pF x y xnew c i m hm hi hout
    simp only [List.mem_cons, List.not_mem_nil, or_false] at hm
    rcases hm with rfl | rfl | rfl
    · exact ⟨_, rfl, by
        rw [getD_map _ _ _ _ 0 hi]
        exact npInterpPoint_out x y c _ hout⟩
    · exact ⟨_, rfl, applyFillOverwrite_out _ x xnew c i hi hout⟩
    · exact ⟨_, rfl, applyFillOverwrite_out _ x xnew c i hi hout⟩
  · intro sF qF bF aF pF x y xnew m hm fv fv'
    simp only [List.mem_cons, List.not_mem_nil, or_false] at hm
    rcases hm with rfl | rfl | rfl <;> rfl
  · intro sF qF bF aF pF x y xnew m fv hm
    simp only [List.mem_cons, List.not_mem_nil, or_false, not_or] at hm
    obtain ⟨h1, h2, h3, h4, h5, h6⟩ := hm
    simp [interpolate, h1, h2, h3, h4, h5, h6]

/-- Witness for C9: a straight line on `x=[0,1]` evaluated at the
out-of-range point `5` with `method="linear"`, `fill_value=-1` gives
exactly `-1`. -/
theorem interpolate_claim_witness :
    ("linear" ∈ ["linear", "cubic", "pchip"]) ∧
    (0 < ([5] : List ℚ).length) ∧
    (([5] : List ℚ).getD 0 0 < ([0, 1] : List ℚ).headD 0 ∨
      ([0, 1] : List ℚ).getLastD 0 < ([5] : List ℚ).getD 0 0) ∧
    (∃ r, interpolate (fun _ _ _ => 0) (fun _ _ _ => 0) (fun _ _ _ => 0)
        (fun _ _ _ _ => 0) (fun _ _ _ _ => 0) [0, 1] [0, 0] [5] "linear"
        (some (-1)) = .ok r ∧ r.getD 0 0 = -1) :=
  ⟨by decide, by decide, by decide,
    interpolate_claim.1 (fun _ _ _ => 0) (fun _ _ _ => 0) (fun _ _ _ => 0)
      (fun _ _ _ _ => 0) (fun _ _ _ _ => 0) [0, 1] [0, 0] [5] (-1) 0 "linear"
      (by decide) (by decide) (by decide)⟩

end

/-- The candidate-peak list is strictly increasing: it is a filtering of
the index range. -/
theorem peakCandidates_pairwise_lt (y : List ℚ) (t : ℚ) (ta : Bool) :
    (peakCandidates y t ta).Pairwise (· < ·) := by
  simp only [peakCandidates]
  exact (List.pairwise_lt_range _).filter _

/-- Membership in the candidate-peak list decodes to the candidate
predicate of `peak_indexes`. -/
theorem mem_peakCandidates {y : List ℚ} {t : ℚ} {ta : Bool} {i : ℕ}
    (h : i ∈ peakCandidates y t ta) :
    i < y.length ∧ i < (adjustedDy y).length ∧ (adjustedDy y).getD i 0 < 0 ∧
    0 < i ∧ 0 < (adjustedDy y).getD (i - 1) 0 ∧
    thresResolved y t ta < y.getD i 0 := by
  simp only [peakCandidates, List.mem_filter, List.mem_range,
    decide_eq_true_eq] at h
  tauto

/-- Two adjacent indices cannot both be candidate peaks: the first
requires a negative difference at `i`, the second a positive one. -/
theorem peakCandidates_not_adjacent {y : List ℚ} {t : ℚ} {ta : Bool} {i : ℕ}
    (h1 : i ∈ peakCandidates y t ta) (h2 : i + 1 ∈ peakCandidates y t ta) :
    False := by
  have a1 := (mem_peakCandidates h1).2.2.1
  have a2 := (mem_peakCandidates h2).2.2.2.2.1
  simp only [Nat.add_sub_cancel] at a2
  linarith

/-- A list with at most one element is vacuously pairwise. -/
theorem pairwise_of_length_le_one {α : Type} {R : α → α → Prop}
    {l : List α} (h : l.length ≤ 1) : l.Pairwise R := by
  match l, h with
  | [], _ => exact List.Pairwise.nil
  | [a], _ => simp

/-- Invariant of the pruning loop of `peak_indexes`: if initially every
index not excluded and no longer pending is farther than `md` from every
other non-excluded index, then after folding `pruneStep` over the pending
peaks every two distinct surviving indices below `n` are farther than
`md` apart. -/
theorem pruneFold_gap (md n : ℕ) (pend : List ℕ) :
    ∀ rem : Finset ℕ,
      (∀ p ∈ pend, p < n) →
      (∀ i, i < n → i ∉ rem → i ∉ pend →
        ∀ j, j < n → j ∉ rem → j ≠ i → md + i < j ∨ md + j < i) →
      ∀ i j, i < n → j < n → i ∉ pend.foldl (pruneStep md) rem →
        j ∉ pend.foldl (pruneStep md) rem → i ≠ j →
        md + i < j ∨ md + j < i := by
  induction pend with
  | nil =>
    intro rem _ H i j hi hj hif hjf hij
    simp only [List.foldl_nil] at hif hjf
    exact H i hi hif (List.not_mem_nil i) j hj hjf (Ne.symm hij)
  | cons p rest ih =>
    intro rem hpend H i j hi hj hif hjf hij
    simp only [List.foldl_cons] at hif hjf
    refine ih (pruneStep md rem p)
      (fun q hq => hpend q (List.mem_cons_of_mem p hq)) ?_ i j hi hj hif hjf hij
    intro a ha haR harest b hb hbR hba
    by_cases hp : p ∈ rem
    · rw [pruneStep, if_pos hp] at haR hbR
      have hap : a ≠ p := fun h => haR (h ▸ hp)
      refine H a ha haR ?_ b hb hbR hba
      rw [List.mem_cons]
      push_neg
      exact ⟨hap, harest⟩
    · rw [pruneStep, if_neg hp] at haR hbR
      have hchar : ∀ z : ℕ,
          z ∉ (rem ∪ Finset.Ico (p - md) (p + md + 1)) \ {p} ↔
          z = p ∨ (z ∉ rem ∧ z ∉ Finset.Ico (p - md) (p + md + 1)) := by
        intro z
        simp only [Finset.mem_sdiff, Finset.mem_union, Finset.mem_singleton]
        tauto
      rw [hchar] at haR hbR
      rcases haR with rfl | ⟨haRem, haI⟩
      · rcases hbR with rfl | ⟨_, hbI⟩
        · exact absurd rfl hba
        · rw [Finset.mem_Ico] at hbI
          omega
      · have hap : a ≠ p := by
          intro h
          subst h
          exact haI (Finset.mem_Ico.mpr (by omega))
        have hacons : a ∉ p :: rest := by
          rw [List.mem_cons]
          push_neg
          exact ⟨hap, harest⟩
        by_cases hbp : b = p
        · subst hbp
          exact H a ha haRem hacons b (hpend b (List.mem_cons_self b rest)) hp hba
        · rcases hbR with rfl | ⟨hbRem, _⟩
          · exact absurd rfl hbp
          · exact H a ha haRem hacons b hb hbRem hba

/-- After minimum-distance pruning, the returned peaks are strictly
increasing and every two of them are farther than `min_dist` apart. -/
theorem prunePeaks_gap (y : List ℚ) (md : ℕ) (t : ℚ) (ta : Bool) :
    (prunePeaks y md (peakCandidates y t ta)).Pairwise
      (fun i j => i < j ∧ md < j - i) := by
  have base : (prunePeaks y md (peakCandidates y t ta)).Pairwise (· < ·) := by
    simp only [prunePeaks]
    exact (List.pairwise_lt_range _).filter _
  refine base.imp_of_mem ?_
  intro a b ha hb hab
  refine ⟨hab, ?_⟩
  simp only [prunePeaks, List.mem_filter, List.mem_range,
    decide_eq_true_eq] at ha hb
  obtain ⟨han, haF⟩ := ha
  obtain ⟨hbn, hbF⟩ := hb
  have hgap := pruneFold_gap md y.length
    ((List.insertionSort (fun i j => y.getD i 0 ≤ y.getD j 0)
      (peakCandidates y t ta)).reverse)
    ((Finset.range y.length).filter (fun i => i ∉ peakCandidates y t ta))
    (by
      intro p hp
      rw [List.mem_reverse, List.mem_insertionSort] at hp
      exact (mem_peakCandidates hp).1)
    (by
      intro i hi hiRem hiPend j hj hjRem hji
      exfalso
      apply hiPend
      rw [List.mem_reverse, List.mem_insertionSort]
      simp only [Finset.mem_filter, Finset.mem_range, not_and, not_not] at hiRem
      exact hiRem hi)
    a b han hbn haF hbF (Nat.ne_of_lt hab)
  omega

section
set_option maxRecDepth 100000
attribute [local semireducible] Rat.add Rat.sub Rat.mul Rat.inv

/-- Claim C5: the index list returned by `peak_indexes` is strictly
increasing and no two returned indices lie within `min_dist` of each
other; pruning keeps the tallest peak of a cluster — in particular on two
spikes of heights 10 and 8 at indices 10 and 12 in a flat-zero array,
with `min_dist = 5`, the result is exactly `[10]`. -/
theorem peak_indexes_claim :
    (∀ (y : List ℚ) (thres : ℚ) (min_dist : ℕ) (thres_abs : Bool),
      (peak_indexes y thres min_dist thres_abs).Pairwise
        (fun i j => i < j ∧ min_dist < j - i)) ∧
    peak_indexes spikes2 (3 / 10) 5 false = [10] := by
  constructor
  · intro y t md ta
    simp only [peak_indexes]
    split_ifs with h1 h2
    · exact List.Pairwise.nil
    · exact prunePeaks_gap y md t ta
    · rcases not_and_or.mp h2 with hlen | hmd
      · exact pairwise_of_length_le_one (by omega)
      · refine (peakCandidates_pairwise_lt y t ta).imp_of_mem ?_
        intro a b ha hb hab
        refine ⟨hab, ?_⟩
        have hne : b ≠ a + 1 := by
          intro h
          exact peakCandidates_not_adjacent ha (h ▸ hb)
        omega
  · decide

/-- Witness for C4 at `x = [0, 1, 2, 3]`: the period is `1` and no
warning is emitted. -/
theorem sampling_period_claim_witness :
    (3 ≤ ([0, 1, 2, 3] : List ℚ).length) ∧
    (([0, 1, 2, 3] : List ℚ).Chain' (· < ·)) ∧
    ((sampling_period [0, 1, 2, 3]).1 =
      ([0, 1, 2, 3] : List ℚ).getD 1 0 - ([0, 1, 2, 3] : List ℚ).getD 0 0 ∧
      ((sampling_period ([0, 1, 2, 3] : List ℚ)).2 = true ↔
        ¬ |maxQ (diffQ (diffQ ([0, 1, 2, 3] : List ℚ)))| ≤ 1 / 10000000000)) ∧
    (sampling_period [0, 1, 2, 3]).2 = false :=
  ⟨by decide, by norm_num [List.chain'_cons],
    sampling_period_claim [0, 1, 2, 3] (by decide)
      (by norm_num [List.chain'_cons]), by decide⟩

end

/-- `getD` of a mapped index range evaluates the function at the index. -/
theorem getD_range_map {β : Type} (f : ℕ → β) (n k : ℕ) (d : β) (h : k < n) :
    ((List.range n).map f).getD k d = f k := by
  rw [getD_map _ _ _ _ 0 (by simpa using h)]
  congr 1
  simp [List.getD_eq_getElem?_getD, List.getElem?_range, h]

/-- Orthogonality of the discrete Fourier kernel: summing the product of
the forward twiddle factor at bin `j` and the inverse twiddle factor at
bin `m` over all `n` sample points gives `n` on the diagonal and `0` off
it. -/
theorem sum_exp_orth (n m j : ℕ) (hm : m < n) (hj : j < n) :
    ∑ k in Finset.range n,
      Complex.exp (-(2 * Real.pi * Complex.I) * k * j / n) *
        Complex.exp ((2 * Real.pi * Complex.I) * k * m / n) =
    if m = j then (n : ℂ) else 0 := by
  have hn : (n : ℂ) ≠ 0 := Nat.cast_ne_zero.mpr (by omega)
  have hterm : ∀ k : ℕ,
      Complex.exp (-(2 * Real.pi * Complex.I) * k * j / n) *
        Complex.exp ((2 * Real.pi * Complex.I) * k * m / n) =
      Complex.exp (2 * Real.pi * Complex.I * ((m : ℂ) - j) / n) ^ k := by
    intro k
    rw [← Complex.exp_nat_mul, ← Complex.exp_add]
    congr 1
    ring
  rw [Finset.sum_congr rfl (fun k _ => hterm k)]
  by_cases hmj : m = j
  · subst hmj
    simp [sub_self, Complex.exp_zero]
  · have hζn : Complex.exp (2 * Real.pi * Complex.I * ((m : ℂ) - j) / n) ^ n = 1 := by
      rw [← Complex.exp_nat_mul]
      have harr : (n : ℂ) * (2 * Real.pi * Complex.I * ((m : ℂ) - j) / n) =
          (((m : ℤ) - (j : ℤ) : ℤ) : ℂ) * (2 * Real.pi * Complex.I) := by
        push_cast
        field_simp
        ring
      rw [harr, Complex.exp_int_mul_two_pi_mul_I]
    have hζ1 : Complex.exp (2 * Real.pi * Complex.I * ((m : ℂ) - j) / n) ≠ 1 := by
      intro hone
      rw [Complex.exp_eq_one_iff] at hone
      obtain ⟨t, ht⟩ := hone
      have hπ : (2 * (Real.pi : ℂ) * Complex.I) ≠ 0 := by
        simp [Real.pi_ne_zero, Complex.I_ne_zero]
      have h3 := (div_eq_iff hn).mp ht
      have h4 : (2 * (Real.pi : ℂ) * Complex.I) * ((m : ℂ) - j) =
          (2 * (Real.pi : ℂ) * Complex.I) * ((t : ℂ) * n) := by
        linear_combination h3
      have h2 : ((m : ℂ) - j) = (t : ℂ) * n := mul_left_cancel₀ hπ h4
      have h5 : ((m : ℤ) - j) = t * n := by exact_mod_cast h2
      have hdvd : (n : ℤ) ∣ ((m : ℤ) - j) := ⟨t, by rw [h5]; ring⟩
      have hz := Int.eq_zero_of_dvd_of_natAbs_lt_natAbs hdvd (by omega)
      omega
    rw [geom_sum_eq hζ1, hζn, if_neg hmj]
    simp

/-- Inversion of the embedded NumPy transforms: `ifft(fft(v)) = v` over
`ℂ` (Fourier inversion for the discrete transform). -/
theorem ifftL_fftL (v : List ℂ) : ifftL (fftL v) = v := by
  have hlf : (fftL v).length = v.length := by
    rw [fftL, List.length_map, List.length_range]
  have hlen : (ifftL (fftL v)).length = v.length := by
    rw [ifftL, List.length_map, List.length_range, hlf]
  apply List.ext_getElem
  · rw [hlen]
  · intro m hm1 hm2
    have hn : (v.length : ℂ) ≠ 0 := Nat.cast_ne_zero.mpr (by omega)
    have hgd : (ifftL (fftL v))[m] = (ifftL (fftL v)).getD m 0 := by
      rw [List.getD_eq_getElem?_getD, List.getElem?_eq_getElem hm1]
      rfl
    rw [hgd]
    have e1 : (ifftL (fftL v)).getD m 0 =
        (∑ k in Finset.range v.length,
          (fftL v).getD k 0 *
            Complex.exp (2 * Real.pi * Complex.I * k * m / v.length)) /
          v.length := by
      rw [ifftL, getD_range_map _ _ _ _ (by rw [hlf]; exact hm2), hlf]
    have e2 : ∀ k ∈ Finset.range v.length,
        (fftL v).getD k 0 *
            Complex.exp (2 * Real.pi * Complex.I * k * m / v.length) =
        ∑ j in Finset.range v.length,
          v.getD j 0 *
            (Complex.exp (-(2 * Real.pi * Complex.I) * k * j / v.length) *
              Complex.exp (2 * Real.pi * Complex.I * k * m / v.length)) := by
      intro k hk
      rw [Finset.mem_range] at hk
      rw [fftL, getD_range_map _ _ _ _ hk, Finset.sum_mul]
      exact Finset.sum_congr rfl (fun j _ => by ring)
    have e3 : ∀ j ∈ Finset.range v.length,
        (∑ k in Finset.range v.length,
          v.getD j 0 *
            (Complex.exp (-(2 * Real.pi * Complex.I) * k * j / v.length) *
              Complex.exp (2 * Real.pi * Complex.I * k * m / v.length))) =
        v.getD j 0 * (if m = j then (v.length : ℂ) else 0) := by
      intro j hj
      rw [Finset.mem_range] at hj
      rw [← Finset.mul_sum, sum_exp_orth v.length m j hm2 hj]
    have hmm : m ∈ Finset.range v.length := Finset.mem_range.mpr hm2
    rw [e1, Finset.sum_congr rfl e2, Finset.sum_comm, Finset.sum_congr rfl e3]
    simp only [mul_ite, mul_zero]
    rw [Finset.sum_ite_eq (Finset.range v.length) m
      (fun j => v.getD j 0 * (v.length : ℂ)), if_pos hmm]
    rw [List.getD_eq_getElem?_getD, List.getElem?_eq_getElem hm2]
    simp only [Option.getD_some]
    exact mul_div_cancel_right₀ _ hn

/-- Claim C7: for every real-valued `y` (and `x` with at least two
samples), feeding the unshifted output of `fft1d` back into `ifft1d`
(both with `shift=False`) reconstructs `y` exactly in the Y component
(floating-point tolerance is idealised to equality over `ℝ`). -/
theorem fft_ifft_roundtrip (x : List ℝ) (y : List ℝ)
    (_h2 : 2 ≤ x.length) :
    (ifft1d (fft1d x (y.map Complex.ofReal) false).1
        (fft1d x (y.map Complex.ofReal) false).2 false).2 = y := by
  have hfst : (ifft1d (fft1d x (y.map Complex.ofReal) false).1
      (fft1d x (y.map Complex.ofReal) false).2 false).2 =
      (ifftL (fftL (y.map Complex.ofReal))).map Complex.re := rfl
  rw [hfst, ifftL_fftL, List.map_map]
  have hco : Complex.re ∘ Complex.ofReal = id := funext Complex.ofReal_re
  rw [hco, List.map_id]

/-- Witness for C7 at `x = [0, 1]`, `y = [1]`. -/
theorem fft_ifft_roundtrip_witness :
    2 ≤ ([0, 1] : List ℝ).length ∧
    (ifft1d (fft1d [0, 1] (([1] : List ℝ).map Complex.ofReal) false).1
        (fft1d [0, 1] (([1] : List ℝ).map Complex.ofReal) false).2 false).2 =
      [1] :=
  ⟨by simp, fft_ifft_roundtrip [0, 1] [1] (by simp)⟩

/-- Totality of the NumPy lexicographic complex order. -/
theorem cLeLex_total (a b : ℂ) : cLeLex a b ∨ cLeLex b a := by
  rcases lt_trichotomy a.re b.re with h | h | h
  · exact Or.inl (Or.inl h)
  · rcases le_total a.im b.im with h' | h'
    · exact Or.inl (Or.inr ⟨h, h'⟩)
    · exact Or.inr (Or.inr ⟨h.symm, h'⟩)
  · exact Or.inr (Or.inl h)

/-- Transitivity of the NumPy lexicographic complex order. -/
theorem cLeLex_trans {a b c : ℂ} (h1 : cLeLex a b) (h2 : cLeLex b c) :
    cLeLex a c := by
  rcases h1 with h1 | ⟨h1e, h1i⟩ <;> rcases h2 with h2 | ⟨h2e, h2i⟩
  · exact Or.inl (h1.trans h2)
  · exact Or.inl (h2e ▸ h1)
  · exact Or.inl (h1e ▸ h2)
  · exact Or.inr ⟨h1e.trans h2e, h1i.trans h2i⟩

/-- The embedded `np.fft.fft` on a two-sample signal. -/
theorem fftL_pair (a b : ℂ) : fftL [a, b] = [a + b, a - b] := by
  have hpi : Complex.exp (-(2 * (Real.pi : ℂ) * Complex.I) / 2) = -1 := by
    have harr : -(2 * (Real.pi : ℂ) * Complex.I) / 2 =
        -((Real.pi : ℂ) * Complex.I) := by ring
    rw [harr, Complex.exp_neg, Complex.exp_pi_mul_I]
    norm_num
  simp [fftL, Finset.sum_range_succ]
  rw [show List.range 2 = [0, 1] from rfl]
  simp [Complex.exp_zero, hpi]
  ring

/-- `np.argsort` under the complex lexicographic order puts the bin with
value `-2` before the bin with value `1`. -/
theorem argsortC_pair : argsortC [(1 : ℂ), -2] = [1, 0] := by
  have hr : ¬ cLeLex (([(1 : ℂ), -2]).getD 0 0) (([(1 : ℂ), -2]).getD 1 0) := by
    simp only [List.getD_cons_zero, List.getD_cons_succ]
    simp only [cLeLex, not_or, not_and, not_lt]
    norm_num
  rw [argsortC, show List.range (List.length [(1 : ℂ), -2]) = [0, 1] from rfl]
  simp only [List.insertionSort, List.orderedInsert]
  rw [if_neg hr]

/-- `np.argsort` by magnitude puts the bin with value `1` (magnitude `1`)
before the bin with value `-2` (magnitude `2`). -/
theorem argsortAbs_pair : argsortAbs [(1 : ℂ), -2] = [0, 1] := by
  have hr : Complex.abs (([(1 : ℂ), -2]).getD 0 0) ≤
      Complex.abs (([(1 : ℂ), -2]).getD 1 0) := by
    simp only [List.getD_cons_zero, List.getD_cons_succ]
    norm_num [map_neg_eq_map]
  rw [argsortAbs, show List.range (List.length [(1 : ℂ), -2]) = [0, 1] from rfl]
  simp only [List.insertionSort, List.orderedInsert]
  rw [if_pos hr]

/-- The embedded `np.fft.fftfreq` for two samples at unit spacing. -/
theorem fftfreq_pair : fftfreq 2 (1 : ℝ) = [0, -(1 / 2)] := by
  rw [fftfreq, show List.range 2 = [0, 1] from rfl]
  norm_num

/-- Evaluation of the source's `sort_frequencies` on
`x=[0,1]`, `y=[-1/2, 3/2]` (FFT values `[1, -2]`). -/
theorem sort_frequencies_eval :
    sort_frequencies [(0 : ℝ), 1] [-(1 / 2 : ℂ), 3 / 2] = [-(1 / 2 : ℝ), 0] := by
  have hfft : fftL [-(1 / 2 : ℂ), 3 / 2] = [(1 : ℂ), -2] := by
    rw [fftL_pair]
    norm_num
  have hlen : List.length [(0 : ℝ), 1] = 2 := rfl
  have hd : ([(0 : ℝ), 1]).getD 1 0 - ([(0 : ℝ), 1]).getD 0 0 = 1 := by
    simp
  simp only [sort_frequencies, fft1d, Bool.false_eq_true, if_false]
  rw [hfft, argsortC_pair, hlen, hd, fftfreq_pair]
  simp

/-- Evaluation of the spec's magnitude-ranked version on the same
input. -/
theorem sortFrequenciesSpecClaimed_eval :
    sortFrequenciesSpecClaimed [(0 : ℝ), 1] [-(1 / 2 : ℂ), 3 / 2] =
      [(0 : ℝ), -(1 / 2)] := by
  have hfft : fftL [-(1 / 2 : ℂ), 3 / 2] = [(1 : ℂ), -2] := by
    rw [fftL_pair]
    norm_num
  have hlen : List.length [(0 : ℝ), 1] = 2 := rfl
  have hd : ([(0 : ℝ), 1]).getD 1 0 - ([(0 : ℝ), 1]).getD 0 0 = 1 := by
    simp
  simp only [sortFrequenciesSpecClaimed, fft1d, Bool.false_eq_true, if_false]
  rw [hfft, argsortAbs_pair, hlen, hd, fftfreq_pair]
  simp

/-- Claim C2 counterexample: on `x=[0,1]`, `y=[-1/2, 3/2]` the FFT is
`[1, -2]` (magnitudes `[1, 2]`): ranking by magnitude would return the
frequency axis in the order `[0, -1/2]`, but the code applies
`np.argsort` to the complex values themselves (lexicographic by real
part), returning `[-1/2, 0]`. -/
theorem sort_frequencies_counterexample :
    sort_frequencies [(0 : ℝ), 1] [-(1 / 2 : ℂ), 3 / 2] ≠
      sortFrequenciesSpecClaimed [(0 : ℝ), 1] [-(1 / 2 : ℂ), 3 / 2] := by
  rw [sort_frequencies_eval, sortFrequenciesSpecClaimed_eval]
  intro h
  simp at h

/-- Claim C2 amended: `sort_frequencies(x, y)` returns the unshifted
frequency axis reordered by a permutation that sorts the *complex* FFT
values in ascending NumPy lexicographic order (real part first, then
imaginary part) — not by magnitude rank. -/
theorem sort_frequencies_amended (x : List ℝ) (y : List ℂ) :
    ∃ σ : List ℕ, σ.Perm (List.range y.length) ∧
      σ.Sorted (fun i j => cLeLex ((fftL y).getD i 0) ((fftL y).getD j 0)) ∧
      sort_frequencies x y =
        σ.map (fun i =>
          (fftfreq x.length (x.getD 1 0 - x.getD 0 0)).getD i 0) := by
  classical
  have hlf : (fftL y).length = y.length := by
    rw [fftL, List.length_map, List.length_range]
  haveI hTot : IsTotal ℕ
      (fun i j => cLeLex ((fftL y).getD i 0) ((fftL y).getD j 0)) :=
    ⟨fun a b => cLeLex_total _ _⟩
  haveI hTrans : IsTrans ℕ
      (fun i j => cLeLex ((fftL y).getD i 0) ((fftL y).getD j 0)) :=
    ⟨fun a b c h1 h2 => cLeLex_trans h1 h2⟩
  refine ⟨argsortC (fftL y), ?_, ?_, rfl⟩
  · rw [← hlf]
    exact List.perm_insertionSort _ _
  · exact List.sorted_insertionSort _ _

end DataLab
